import Mathlib

/-!
Verification development for the sedlagogn grid-to-hierarchy extraction code.

The repository re-implements one algorithm several times:

* `backend/extract_json.py` — `parse_section` inside `extract_nested_json`:
  an ancestor stack of `(node, level)` pairs seeded with a level-0 sentinel
  root; pandas cells; bilingual split on `"/"` with `strip`.
* `backend/hierarchy_mapper.py` — `extract_hierarchy_data` (flat entries) and
  `build_section_hierarchy` (a `node_map` dict keyed by level); openpyxl
  cells; bilingual split on `" / "` without strip.
* `backend/dataframe_parser.py` — `parse_excel_to_dataframe`: a
  `current_parents` dict, emitting one flat row per (row, period-with-value)
  pair, then `df.sort_values(['date', 'type', 'name'])`.
* `backend/openpyxl_parser.py` — `ExcelSheetParser.detect_hierarchy`, whose
  section-switch test is embedded below as `detect_hierarchy_switch`.

Embedding conventions:

* A grid cell is reified as `Cell`: `blank` models `None`/`NaN`; `num v`
  models an `int`/`float` value (numbers are taken in `Int`, sufficient for
  the integer-valued fixtures the claims use); `text s` a non-date string;
  `date label` a `datetime`/`Timestamp` cell, carrying the canonical
  `"%Y-%m-%d"` label its `strftime` would produce.
* Header cells are reified as `HCell`, recording the outcome of
  `pd.to_datetime`: `parsed label` is a cell the parse accepts (a native
  date or a parseable string), `unparsed s` is a cell whose parse raises,
  `blank` is a `None`/falsy cell that is skipped before any parse attempt.
* A data row is its label-column cell plus the list of cells from the
  configured `data_start_column` to the end of the sheet, in column order.
* Python string operations are re-implemented structurally over `List Char`
  (`splitOnceL` is `str.split(sep, 1)` restricted to the first occurrence,
  `trimL` is `str.strip()` for the common whitespace characters) so that
  every definition evaluates inside the kernel.
* The mutating while-loops of the sources are rendered with the standard
  attach-on-pop discipline: a node is appended to its parents children when
  it leaves the working stack (or at finalization) instead of at creation
  time.  Between the push and the pop of a stack element, the elements below
  it are untouched, so the receiving parent is exactly the node that was on
  top of the stack when the child was created, and children accumulate in
  creation order — the same tree the Python mutation produces.
-/

/-! ## Character-level string helpers (Python `split`/`strip` semantics) -/

/-- First-occurrence split: Python `s.split(sep, 1)` for a nonempty `sep`
that occurs in `s` returns the pair of chunks; `none` models `sep not in s`. -/
def splitOnceL (sep : List Char) : List Char → Option (List Char × List Char)
  | [] => none
  | c :: rest =>
    if sep.isPrefixOf (c :: rest) then some ([], (c :: rest).drop sep.length)
    else
      match splitOnceL sep rest with
      | some (a, b) => some (c :: a, b)
      | none => none

/-- Whitespace test used by `trimL` (the characters `str.strip()` removes
that actually occur in the spreadsheets). -/
def isSpaceC (c : Char) : Bool := c == ' ' || c == '\t' || c == '\n' || c == '\r'

/-- Python `str.strip()`. -/
def trimL (s : List Char) : List Char :=
  ((s.dropWhile isSpaceC).reverse.dropWhile isSpaceC).reverse

/-- Strip a `String` via `trimL`. -/
def trimS (s : String) : String := String.mk (trimL s.data)

/-! ## Cells and rows -/

/-- A reified spreadsheet cell (see the header comment). -/
inductive Cell where
  | blank
  | num (v : Int)
  | text (s : String)
  | date (label : String)
  deriving DecidableEq, Repr

/-- Python `str(cell)` as the sources use it on label cells. -/
def strOfCell : Cell → String
  | Cell.blank => ""
  | Cell.num v => toString v
  | Cell.text s => s
  | Cell.date l => l

/-- A reified header-row cell, recording the `pd.to_datetime` outcome. -/
inductive HCell where
  | blank
  | parsed (label : String)
  | unparsed (s : String)
  deriving DecidableEq, Repr

/-- One data row: the label-column cell and the data-column cells (from the
configured `data_start_column` onward, in column order). -/
structure Row where
  nameCell : Cell
  cells : List Cell
  deriving DecidableEq, Repr

/-! ## Model of `extract_json.py` -/

/-- Date-row scan of `extract_nested_json` (lines 18–25): every `pd.notna`
cell contributes — dates via `strftime`, anything else via `str(cell)`.
Unparseable header cells are NOT skipped here. -/
def extract_json_dates : List HCell → List String
  | [] => []
  | HCell.blank :: r => extract_json_dates r
  | HCell.parsed l :: r => l :: extract_json_dates r
  | HCell.unparsed s :: r => s :: extract_json_dates r

/-- Bilingual split of `parse_section` (lines 48–54): split on `"/"` with
`strip`; when no separator is present BOTH names default to the full label. -/
def splitNameA (name : String) : String × String :=
  match splitOnceL "/".data name.data with
  | some (a, b) => (String.mk (trimL a), String.mk (trimL b))
  | none => (name, name)

/-- Value extraction of `parse_section` (lines 56–65): for the i-th period
label, read the cell at `data_start_column - 1 + i` (when inside the sheet)
and store it whenever it is `pd.notna` — numeric or not, the raw value is
kept. -/
def valuesA (cells : List Cell) : Nat → List String → List (String × Cell)
  | _, [] => []
  | i, d :: ds =>
    match cells.get? i with
    | some c =>
      if c = Cell.blank then valuesA cells (i + 1) ds
      else (d, c) :: valuesA cells (i + 1) ds
    | none => valuesA cells (i + 1) ds

/-- The node dict of `parse_section`: `name` / `is` / `en` / `values` /
`children`.  The sentinel section root reuses the shape with its section
name in all three label fields. -/
inductive NodeA where
  | mk (name nameIs nameEn : String) (values : List (String × Cell))
      (children : List NodeA)

def NodeA.name : NodeA → String
  | NodeA.mk n _ _ _ _ => n

def NodeA.nameIs : NodeA → String
  | NodeA.mk _ i _ _ _ => i

def NodeA.nameEn : NodeA → String
  | NodeA.mk _ _ e _ _ => e

def NodeA.values : NodeA → List (String × Cell)
  | NodeA.mk _ _ _ v _ => v

def NodeA.children : NodeA → List NodeA
  | NodeA.mk _ _ _ _ c => c

/-- Append a child (Python `parent["children"].append(node)`). -/
def NodeA.addChild : NodeA → NodeA → NodeA
  | NodeA.mk n i e v cs, c => NodeA.mk n i e v (cs ++ [c])

/-- Node construction for one non-blank row (lines 46–74). -/
def mkNodeA (dates : List String) (r : Row) : NodeA :=
  let name := trimS (strOfCell r.nameCell)
  let p := splitNameA name
  NodeA.mk name p.1 p.2 (valuesA r.cells 0 dates) []

/-- Collapse a popped stack segment bottom-up: each popped node is appended
to the children of the element below it. -/
def foldPopsA : NodeA → List (NodeA × Int) → NodeA
  | acc, [] => acc
  | acc, (m, _) :: rest => foldPopsA (m.addChild acc) rest

/-- Attach a completed child to the node on top of the remaining stack. -/
def attachIntoA (child : NodeA) : List (NodeA × Int) → List (NodeA × Int)
  | [] => []
  | (m, l) :: rest => (m.addChild child, l) :: rest

/-- The pop loop of `parse_section` (lines 76–78):
`while stack[-1][1] >= level: stack.pop()`.  The popped prefix is exactly
the longest prefix of stack entries whose level is `≥ level` (popping never
changes a level), and the popped nodes fold into the new top.  An empty
result models the `IndexError` Python raises when the loop pops the whole
stack and then evaluates `stack[-1]`. -/
def popToA (level : Int) (st : List (NodeA × Int)) : List (NodeA × Int) :=
  match st.takeWhile (fun p => decide (level ≤ p.2)) with
  | [] => st
  | p :: ps => attachIntoA (foldPopsA p.1 ps) (st.dropWhile (fun p => decide (level ≤ p.2)))

/-- The row loop of `parse_section` (lines 36–84).  Each iteration consumes
one declared level AND one grid row (a blank label row advances `current_row`
and `continue`s to the next level, so blank rows consume their level too).
`none` models the uncaught `IndexError` from an emptied stack. -/
def parseGoA (dates : List String) : List (Int × Row) → List (NodeA × Int) →
    Option (List (NodeA × Int))
  | [], st => some st
  | (l, r) :: rest, st =>
    if r.nameCell = Cell.blank then parseGoA dates rest st
    else
      match popToA l st with
      | [] => none
      | st' => parseGoA dates rest ((mkNodeA dates r, l) :: st')

/-- `parse_section(start_row, hierarchy_levels, section_name)` (lines 28–86):
runs the row loop from the sentinel `[(result, 0)]` stack and finalizes by
collapsing the remaining stack into the sentinel root. -/
def parse_section (dates : List String) (hierarchyLevels : List Int)
    (rows : List Row) (sectionName : String) : Option NodeA :=
  match parseGoA dates (hierarchyLevels.zip rows)
      [(NodeA.mk sectionName sectionName sectionName [] [], 0)] with
  | some (p :: ps) => some (foldPopsA p.1 ps)
  | _ => none

/-- Section pairing of `extract_nested_json` (lines 88–102): assets are
parsed from the assets run, liabilities from the liabilities run, each with
its own fresh stack; a failure in either aborts the whole extraction. -/
def extract_nested_json (dates : List String)
    (assetsHierarchy : List Int) (assetsRows : List Row)
    (liabilitiesHierarchy : List Int) (liabilitiesRows : List Row) :
    Option (NodeA × NodeA) :=
  match parse_section dates assetsHierarchy assetsRows "EIGNIR / ASSETS",
      parse_section dates liabilitiesHierarchy liabilitiesRows "SKULDIR / LIABILITIES" with
  | some a, some l => some (a, l)
  | _, _ => none

/-! ## Model of `hierarchy_mapper.py` -/

/-- Date-row scan of `extract_hierarchy_data` (lines 36–48): falsy cells are
skipped, `datetime` cells contribute their `strftime` label, other values are
given to `pd.to_datetime` and are SKIPPED when that parse raises. -/
def mapper_dates : List HCell → List String
  | [] => []
  | HCell.blank :: r => mapper_dates r
  | HCell.parsed l :: r => l :: mapper_dates r
  | HCell.unparsed _ :: r => mapper_dates r

/-- Bilingual split of `extract_hierarchy_data` (lines 77–84 and 116–123):
split on `" / "` without stripping; when no separator is present the English
name is the empty string. -/
def splitNameB (name : String) : String × String :=
  match splitOnceL " / ".data name.data with
  | some (a, b) => (String.mk a, String.mk b)
  | none => (name, "")

/-- Value extraction of `extract_hierarchy_data` (lines 62–67 and 101–106):
the i-th period label is paired with the cell `data_start_column + i`, kept
only when it is non-`None` and numeric. -/
def valuesB (cells : List Cell) : Nat → List String → List (String × Int)
  | _, [] => []
  | i, d :: ds =>
    match cells.get? i with
    | some (Cell.num v) => (d, v) :: valuesB cells (i + 1) ds
    | _ => valuesB cells (i + 1) ds

/-- One flat entry of `extract_hierarchy_data` (lines 70–86): stripped name,
declared level, source row index, bilingual names and numeric values. -/
structure Entry where
  name : String
  hlevel : Int
  row : Nat
  isName : String
  enName : String
  values : List (String × Int)
  deriving DecidableEq, Repr

/-- The per-section extraction loop of `extract_hierarchy_data`
(lines 51–87): levels and rows advance in lockstep (a `None` label cell
consumes its level and produces no entry). -/
def extract_section_rows (dates : List String) : List (Int × Row) → Nat → List Entry
  | [], _ => []
  | (l, r) :: rest, rowIdx =>
    match r.nameCell with
    | Cell.blank => extract_section_rows dates rest (rowIdx + 1)
    | c =>
      let name := trimS (strOfCell c)
      let p := splitNameB name
      { name := name, hlevel := l, row := rowIdx, isName := p.1, enName := p.2,
        values := valuesB r.cells 0 dates } :: extract_section_rows dates rest (rowIdx + 1)

/-- The node dict of `build_section_hierarchy` (lines 150–161). -/
inductive NodeB where
  | mk (id name isName enName : String) (level : Int)
      (values : List (String × Int)) (children : List NodeB)

def NodeB.id : NodeB → String
  | NodeB.mk i _ _ _ _ _ _ => i

def NodeB.name : NodeB → String
  | NodeB.mk _ n _ _ _ _ _ => n

def NodeB.isName : NodeB → String
  | NodeB.mk _ _ i _ _ _ _ => i

def NodeB.enName : NodeB → String
  | NodeB.mk _ _ _ e _ _ _ => e

def NodeB.level : NodeB → Int
  | NodeB.mk _ _ _ _ l _ _ => l

def NodeB.values : NodeB → List (String × Int)
  | NodeB.mk _ _ _ _ _ v _ => v

def NodeB.children : NodeB → List NodeB
  | NodeB.mk _ _ _ _ _ _ c => c

/-- Append a child (Python `parent["children"].append(node)`). -/
def NodeB.addChild : NodeB → NodeB → NodeB
  | NodeB.mk i n s e l v cs, c => NodeB.mk i n s e l v (cs ++ [c])

/-- Entry-to-node conversion of `build_section_hierarchy` (lines 150–161). -/
def entryToNode (e : Entry) : NodeB :=
  NodeB.mk ("row_" ++ toString e.row) e.name e.isName e.enName e.hlevel e.values []

/-- Collapse the pending `node_map` chain bottom-up: each discarded node is
appended to the children of the node one level below it. -/
def foldPopsB : NodeB → List NodeB → NodeB
  | acc, [] => acc
  | acc, m :: rest => foldPopsB (m.addChild acc) rest

/-- Drop `j` nodes from the top of the `node_map` chain, attaching each to
the node below as it goes (Python deletes map keys deeper than the new
level; the deleted nodes were already linked into their parents children,
which the attach-on-pop discipline reproduces). -/
def popNB : Nat → List NodeB → List NodeB
  | 0, chain => chain
  | _ + 1, [] => []
  | _ + 1, [n] => [n]
  | j + 1, n :: m :: rest => popNB j (m.addChild n :: rest)

/-- One iteration of the tree-building loop of `build_section_hierarchy`
(lines 167–186).  The `node_map` dict always holds the consecutive levels
`1..k` (with `k` the level of the most recently inserted node), so it is
rendered as a chain, top (deepest level) first; the first component is that
chain, the second the completed `root_nodes`.  A level-1 node closes the
current chain and starts a fresh map `{1: node}`; a node whose parent level
`level - 1` is in the map pops the chain down to the parent and pushes; a
node whose parent level is absent (a forward jump past the deepest tracked
level, or a level below 1) is silently DISCARDED. -/
def buildStepB (st : List NodeB × List NodeB) (nd : NodeB) : List NodeB × List NodeB :=
  let chain := st.1
  let roots := st.2
  if nd.level = 1 then
    match chain with
    | [] => ([nd], roots)
    | p :: ps => ([nd], roots ++ [foldPopsB p ps])
  else
    if 2 ≤ nd.level ∧ nd.level ≤ (chain.length : Int) + 1 then
      (nd :: popNB (chain.length + 1 - nd.level.toNat) chain, roots)
    else (chain, roots)

/-- `build_section_hierarchy(section_data)` (lines 145–188): convert the flat
entries to nodes, run the tree-building loop, and finalize by closing the
last pending chain. -/
def build_section_hierarchy (sectionData : List Entry) : List NodeB :=
  let st := (sectionData.map entryToNode).foldl buildStepB ([], [])
  match st.1 with
  | [] => st.2
  | p :: ps => st.2 ++ [foldPopsB p ps]

/-! ## Model of `dataframe_parser.py` -/

/-- One row of the flat dataframe built by `parse_excel_to_dataframe`
(lines 100–111 and 163–174). -/
structure FlatRow where
  date : String
  name : String
  nameIs : String
  nameEn : String
  typ : String
  parent : Option String
  parentIs : Option String
  parentEn : String
  hlevel : Int
  value : Int
  deriving DecidableEq, Repr

/-- Per-date value emission for one grid row (lines 95–112): the i-th period
is paired with cell `data_start_column + i` and a flat row is appended only
when that cell is numeric. -/
def emitRows (typ name nameIs nameEn : String) (parent parentIs : Option String)
    (parentEn : String) (hlevel : Int) (cells : List Cell) :
    Nat → List String → List FlatRow
  | _, [] => []
  | i, d :: ds =>
    match cells.get? i with
    | some (Cell.num v) =>
      { date := d, name := name, nameIs := nameIs, nameEn := nameEn, typ := typ,
        parent := parent, parentIs := parentIs, parentEn := parentEn,
        hlevel := hlevel, value := v } ::
        emitRows typ name nameIs nameEn parent parentIs parentEn hlevel cells (i + 1) ds
    | _ => emitRows typ name nameIs nameEn parent parentIs parentEn hlevel cells (i + 1) ds

/-- The per-section loop of `parse_excel_to_dataframe` (lines 56–114 for
assets, 119–177 for liabilities; both identical up to the section tag).
`cp` is the `current_parents` dict: setting `current_parents[level] = name`
and then deleting the keys deeper than `level` leaves exactly the shallower
keys plus the new binding; the direct parent is `current_parents.get(level-1)`
when `level > 1`.  Rows are appended to the frame in iteration order. -/
def emitSection (dates : List String) (typ : String) :
    List (Int × Row) → List (Int × String) → List FlatRow
  | [], _ => []
  | (l, r) :: rest, cp =>
    match r.nameCell with
    | Cell.blank => emitSection dates typ rest cp
    | c =>
      let name := strOfCell c
      let names := match c with
        | Cell.text s => splitNameB s
        | _ => (strOfCell c, "")
      let cp' := (l, name) :: cp.filter (fun p => decide (p.1 < l))
      let parent := if 1 < l then (cp'.find? (fun p => p.1 == l - 1)).map Prod.snd else none
      let parentSplit : Option String × String := match parent with
        | none => (none, "")
        | some s => ((splitNameB s).1, (splitNameB s).2)
      emitRows typ name names.1 names.2 parent parentSplit.1 parentSplit.2 l r.cells 0 dates
        ++ emitSection dates typ rest cp'

/-- Lexicographic strict comparison on character code points, the order
`df.sort_values` uses on string columns. -/
def lexLt : List Char → List Char → Bool
  | [], [] => false
  | [], _ :: _ => true
  | _ :: _, [] => false
  | a :: as, b :: bs => a.toNat < b.toNat || (a.toNat == b.toNat && lexLt as bs)

/-- The `sort_values(['date', 'type', 'name'])` key order: lexicographic on
the (date, type, name) triple. -/
def sortKeyLE (a b : FlatRow) : Bool :=
  if lexLt a.date.data b.date.data then true
  else if lexLt b.date.data a.date.data then false
  else if lexLt a.typ.data b.typ.data then true
  else if lexLt b.typ.data a.typ.data then false
  else if lexLt a.name.data b.name.data then true
  else if lexLt b.name.data a.name.data then false
  else true

/-- Propositional form of `sortKeyLE` for `List.insertionSort`. -/
def keyRelC (a b : FlatRow) : Prop := sortKeyLE a b = true

instance : DecidableRel keyRelC := fun _ _ => inferInstanceAs (Decidable (_ = true))

/-- `parse_excel_to_dataframe` (lines 15–185): emit the assets section, reset
`current_parents`, emit the liabilities section, build the frame, and sort it
by `['date', 'type', 'name']` before returning (line 183).  The model sort is
stable; the claims below never depend on tie order. -/
def parse_excel_to_dataframe (dates : List String)
    (assetsHierarchy : List Int) (assetsRows : List Row)
    (liabilitiesHierarchy : List Int) (liabilitiesRows : List Row) : List FlatRow :=
  List.insertionSort keyRelC
    (emitSection dates "asset" (assetsHierarchy.zip assetsRows) []
      ++ emitSection dates "liability" (liabilitiesHierarchy.zip liabilitiesRows) [])

/-! ## Model of `openpyxl_parser.py` section switching -/

/-- Python substring containment `sub in s`. -/
def containsSub (sub s : String) : Bool := (splitOnceL sub.data s.data).isSome

/-- The section-switch test of `ExcelSheetParser.detect_hierarchy`
(line 231): `"SKULDIR" in t or "LIABILITIES" in t and row_idx > start_row + 5`.
Python `and` binds tighter than `or`, so the minimum-row-offset guard applies
only to the `LIABILITIES` branch; a `SKULDIR` match switches at any row. -/
def detect_hierarchy_switch (titleText : String) (rowIdx startRow : Nat) : Bool :=
  containsSub "SKULDIR" titleText ||
    (containsSub "LIABILITIES" titleText && decide (startRow + 5 < rowIdx))

/-! ## Claim-level predicates -/

/-- The level carried at the bottom of a `parse_section` stack (the sentinel
root sits there with level `0`). -/
def lastLevel (st : List (NodeA × Int)) : Option Int := st.getLast?.map Prod.snd

/-- Strict-mode continuation check: every level is positive (§3 declares
levels positive integers) and exceeds the previous one by at most one. -/
def noGapFromB (prev : Int) : List Int → Bool
  | [] => true
  | l :: ls => decide (1 ≤ l) && decide (l ≤ prev + 1) && noGapFromB l ls

/-- Strict-mode well-formedness of a declared level run: the section-initial
level is 1 and no level jumps forward by more than one. -/
def noGapSeqB : List Int → Bool
  | [] => true
  | l :: ls => decide (l = 1) && noGapFromB 1 ls

/-- Level consistency of a tree: every child sits exactly one level below
its parent, recursively. -/
inductive LevelsOk : NodeB → Prop
  | intro (n : NodeB) (hlvl : ∀ c ∈ n.children, c.level = n.level + 1)
      (hrec : ∀ c ∈ n.children, LevelsOk c) : LevelsOk n

/-- Invariant of the pending `node_map` chain (top first): the node at
position `i` from the bottom carries level `i + 1`, and the children
accumulated so far on every chain node are level-consistent and sit one
level below it. -/
def ChainInv : List NodeB → Prop
  | [] => True
  | n :: rest => n.level = (rest.length : Int) + 1 ∧
      (∀ c ∈ n.children, c.level = n.level + 1 ∧ LevelsOk c) ∧ ChainInv rest

/-- Root-list invariant: completed roots are level-1 and level-consistent. -/
def RootsOk (roots : List NodeB) : Prop := ∀ t ∈ roots, t.level = 1 ∧ LevelsOk t

/-! ## Helper lemmas: `NodeB` accessors and tree building -/

theorem NodeB.addChild_level (n c : NodeB) : (n.addChild c).level = n.level := by
  cases n
  rfl

theorem NodeB.addChild_children (n c : NodeB) :
    (n.addChild c).children = n.children ++ [c] := by
  cases n
  rfl

theorem levelsOk_children {n : NodeB} (h : LevelsOk n) :
    ∀ c ∈ n.children, c.level = n.level + 1 ∧ LevelsOk c := by
  cases h with
  | intro _ h1 h2 => exact fun c hc => ⟨h1 c hc, h2 c hc⟩

theorem levelsOk_of_partial {n : NodeB}
    (h : ∀ c ∈ n.children, c.level = n.level + 1 ∧ LevelsOk c) : LevelsOk n :=
  LevelsOk.intro n (fun c hc => (h c hc).1) (fun c hc => (h c hc).2)

theorem foldPopsB_ok : ∀ (ps : List NodeB) (acc : NodeB), ChainInv (acc :: ps) →
    (foldPopsB acc ps).level = 1 ∧ LevelsOk (foldPopsB acc ps) := by
  intro ps
  induction ps with
  | nil =>
    intro acc h
    obtain ⟨hl, hc, -⟩ := h
    refine ⟨by simpa using hl, levelsOk_of_partial hc⟩
  | cons m rest ih =>
    intro acc h
    obtain ⟨hl, hc, hml, hmc, hrest⟩ := h
    have hstep : foldPopsB acc (m :: rest) = foldPopsB (m.addChild acc) rest := rfl
    rw [hstep]
    apply ih
    refine ⟨by rw [NodeB.addChild_level]; exact hml, ?_, hrest⟩
    rw [NodeB.addChild_children, NodeB.addChild_level]
    intro c hcm
    rcases List.mem_append.mp hcm with h1 | h1
    · exact hmc c h1
    · have hceq : c = acc := by simpa using h1
      subst hceq
      refine ⟨?_, levelsOk_of_partial hc⟩
      rw [hl, hml]
      simp [List.length_cons]

theorem popNB_inv : ∀ (j : Nat) (chain : List NodeB), j < chain.length → ChainInv chain →
    ChainInv (popNB j chain) ∧ (popNB j chain).length = chain.length - j := by
  intro j
  induction j with
  | zero => intro chain _ h; exact ⟨h, by simp [popNB]⟩
  | succ j ih =>
    intro chain hlen hinv
    match chain with
    | [] => simp at hlen
    | [n] => simp at hlen
    | n :: m :: rest =>
      have hstep : popNB (j + 1) (n :: m :: rest) = popNB j (m.addChild n :: rest) := rfl
      rw [hstep]
      obtain ⟨hnl, hnc, hml, hmc, hrest⟩ := hinv
      have hinv' : ChainInv (m.addChild n :: rest) := by
        refine ⟨by rw [NodeB.addChild_level]; exact hml, ?_, hrest⟩
        rw [NodeB.addChild_children, NodeB.addChild_level]
        intro c hcm
        rcases List.mem_append.mp hcm with h1 | h1
        · exact hmc c h1
        · have hceq : c = n := by simpa using h1
          subst hceq
          refine ⟨?_, levelsOk_of_partial hnc⟩
          rw [hnl, hml]
          simp [List.length_cons]
      have hlen' : j < (m.addChild n :: rest).length := by
        simp at hlen ⊢
        omega
      obtain ⟨h1, h2⟩ := ih (m.addChild n :: rest) hlen' hinv'
      refine ⟨h1, ?_⟩
      rw [h2]
      simp

theorem buildStepB_inv (chain roots : List NodeB) (nd : NodeB)
    (hch : ChainInv chain) (hr : RootsOk roots) (hne : chain ≠ [])
    (hnd : nd.children = [])
    (hg1 : 1 ≤ nd.level) (hg2 : nd.level ≤ (chain.length : Int) + 1) :
    ChainInv (buildStepB (chain, roots) nd).1 ∧ RootsOk (buildStepB (chain, roots) nd).2 ∧
    (buildStepB (chain, roots) nd).1 ≠ [] ∧
    ((buildStepB (chain, roots) nd).1.length : Int) = nd.level := by
  by_cases hl1 : nd.level = 1
  · match chain, hne with
    | p :: ps, _ =>
      have hres : buildStepB (p :: ps, roots) nd = ([nd], roots ++ [foldPopsB p ps]) := by
        simp [buildStepB, hl1]
      rw [hres]
      refine ⟨⟨by simpa using hl1, by simp [hnd], trivial⟩, ?_, by simp, by simp [hl1]⟩
      intro t ht
      rcases List.mem_append.mp ht with h | h
      · exact hr t h
      · have ht2 : t = foldPopsB p ps := by simpa using h
        subst ht2
        exact foldPopsB_ok ps p hch
  · have hcond : 2 ≤ nd.level ∧ nd.level ≤ (chain.length : Int) + 1 := ⟨by omega, hg2⟩
    have hres : buildStepB (chain, roots) nd =
        (nd :: popNB (chain.length + 1 - nd.level.toNat) chain, roots) := by
      simp [buildStepB, hl1, hcond]
    rw [hres]
    have hlen0 : 1 ≤ chain.length := by
      cases chain with
      | nil => exact absurd rfl hne
      | cons a b => simp
    have hj : chain.length + 1 - nd.level.toNat < chain.length := by omega
    obtain ⟨hpi, hplen⟩ := popNB_inv (chain.length + 1 - nd.level.toNat) chain hj hch
    refine ⟨⟨?_, by simp [hnd], hpi⟩, hr, by simp, ?_⟩
    · rw [hplen]; omega
    · simp [List.length_cons, hplen]; omega

theorem buildFold_inv : ∀ (nds : List NodeB) (chain roots : List NodeB),
    ChainInv chain → RootsOk roots → chain ≠ [] →
    (∀ n ∈ nds, n.children = []) →
    noGapFromB (chain.length : Int) (nds.map NodeB.level) = true →
    ChainInv (nds.foldl buildStepB (chain, roots)).1 ∧
    RootsOk (nds.foldl buildStepB (chain, roots)).2 ∧
    (nds.foldl buildStepB (chain, roots)).1 ≠ [] := by
  intro nds
  induction nds with
  | nil => intro chain roots h1 h2 h3 _ _; exact ⟨h1, h2, h3⟩
  | cons nd rest ih =>
    intro chain roots hch hr hne hcc hng
    simp only [List.map_cons, noGapFromB, Bool.and_eq_true, decide_eq_true_eq] at hng
    obtain ⟨⟨hg1, hg2⟩, hng'⟩ := hng
    obtain ⟨s1, s2, s3, s4⟩ :=
      buildStepB_inv chain roots nd hch hr hne (hcc nd (by simp)) hg1 hg2
    have hfold : (nd :: rest).foldl buildStepB (chain, roots) =
        rest.foldl buildStepB (buildStepB (chain, roots) nd) := rfl
    rw [hfold]
    have hpair : buildStepB (chain, roots) nd =
        ((buildStepB (chain, roots) nd).1, (buildStepB (chain, roots) nd).2) := rfl
    rw [hpair]
    apply ih _ _ s1 s2 s3 (fun n hn => hcc n (by simp [hn]))
    rw [s4]
    exact hng'

/-- C3.  Strict-mode level consistency of `build_section_hierarchy`: when the
declared level run of the (non-blank) entries starts at 1, stays positive and
never jumps forward by more than one, every tree of the resulting forest has
a level-1 root and every child node carries exactly its parent level plus
one (`LevelsOk`); level-1 nodes occur only as parentless roots. -/
theorem C3_level_consistency (entries : List Entry)
    (h : noGapSeqB (entries.map Entry.hlevel) = true) :
    ∀ t ∈ build_section_hierarchy entries, t.level = 1 ∧ LevelsOk t := by
  match entries with
  | [] => intro t ht; simp [build_section_hierarchy, buildStepB] at ht
  | e :: rest =>
    simp only [List.map_cons, noGapSeqB, Bool.and_eq_true, decide_eq_true_eq] at h
    obtain ⟨he1, hrest⟩ := h
    have hn1 : (entryToNode e).level = e.hlevel := rfl
    have hstep1 : buildStepB ([], []) (entryToNode e) = ([entryToNode e], []) := by
      simp [buildStepB, hn1, he1]
    have hch1 : ChainInv [entryToNode e] := by
      refine ⟨by simp [hn1, he1], ?_, trivial⟩
      intro c hc
      simp [entryToNode, NodeB.children] at hc
    have hmaps : (rest.map entryToNode).map NodeB.level = rest.map Entry.hlevel := by
      rw [List.map_map]
      rfl
    obtain ⟨f1, f2, f3⟩ :=
      buildFold_inv (rest.map entryToNode) [entryToNode e] []
        hch1 (by intro t ht; simp at ht) (by simp)
        (by
          intro n hn
          rcases List.mem_map.mp hn with ⟨x, -, hx⟩
          rw [← hx]
          rfl)
        (by rw [hmaps]; simpa using hrest)
    have hst : ((e :: rest).map entryToNode).foldl buildStepB ([], []) =
        (rest.map entryToNode).foldl buildStepB ([entryToNode e], []) := by
      rw [List.map_cons, List.foldl_cons, hstep1]
    have hb : build_section_hierarchy (e :: rest) =
        match ((rest.map entryToNode).foldl buildStepB ([entryToNode e], [])).1 with
        | [] => ((rest.map entryToNode).foldl buildStepB ([entryToNode e], [])).2
        | p :: ps => ((rest.map entryToNode).foldl buildStepB ([entryToNode e], [])).2
            ++ [foldPopsB p ps] := by
      rw [build_section_hierarchy, hst]
    rw [hb]
    cases hc : ((rest.map entryToNode).foldl buildStepB ([entryToNode e], [])).1 with
    | nil => exact absurd hc f3
    | cons p ps =>
      intro t ht
      rcases List.mem_append.mp ht with h1 | h1
      · exact f2 t h1
      · have ht2 : t = foldPopsB p ps := by simpa using h1
        subst ht2
        exact foldPopsB_ok ps p (hc ▸ f1)

/-- Witness for C3 on the concrete strict-mode run with levels 1,2,3,2,1. -/
theorem C3_level_consistency_witness :
    noGapSeqB
      ([⟨"a", 1, 0, "a", "", []⟩, ⟨"b", 2, 1, "b", "", []⟩, ⟨"c", 3, 2, "c", "", []⟩,
        ⟨"d", 2, 3, "d", "", []⟩, ⟨"e", 1, 4, "e", "", []⟩].map Entry.hlevel) = true ∧
    ∀ t ∈ build_section_hierarchy
      [⟨"a", 1, 0, "a", "", []⟩, ⟨"b", 2, 1, "b", "", []⟩, ⟨"c", 3, 2, "c", "", []⟩,
       ⟨"d", 2, 3, "d", "", []⟩, ⟨"e", 1, 4, "e", "", []⟩],
      t.level = 1 ∧ LevelsOk t :=
  ⟨by decide, C3_level_consistency _ (by decide)⟩

/-! ## Helper lemmas: the `parse_section` ancestor stack -/

theorem auxGetLastCons {α : Type} (x : α) (l : List α) :
    (x :: l).getLast? = l.getLast?.or (some x) := by
  simpa using @List.getLast?_append _ [x] l

theorem lastLevel_cons_of_ne_nil (x : NodeA × Int) (s : List (NodeA × Int)) (h : s ≠ []) :
    lastLevel (x :: s) = lastLevel s := by
  obtain ⟨q, hq⟩ := Option.ne_none_iff_exists'.mp
    (fun hc => h (List.getLast?_eq_none_iff.mp hc))
  rw [lastLevel, lastLevel, auxGetLastCons, hq]
  rfl

theorem attachIntoA_ne_nil (c : NodeA) (s : List (NodeA × Int)) (h : s ≠ []) :
    attachIntoA c s ≠ [] := by
  cases s with
  | nil => exact absurd rfl h
  | cons p rest => cases p; simp [attachIntoA]

theorem lastLevel_attachIntoA (c : NodeA) (s : List (NodeA × Int)) (h : s ≠ []) :
    lastLevel (attachIntoA c s) = lastLevel s := by
  cases s with
  | nil => exact absurd rfl h
  | cons p rest =>
    obtain ⟨m, l⟩ := p
    cases rest with
    | nil => rfl
    | cons q qs =>
      have h1 : attachIntoA c ((m, l) :: q :: qs) = (m.addChild c, l) :: q :: qs := rfl
      rw [h1, lastLevel_cons_of_ne_nil (m.addChild c, l) (q :: qs) (by simp),
        lastLevel_cons_of_ne_nil (m, l) (q :: qs) (by simp)]

theorem popToA_last (l : Int) (st : List (NodeA × Int)) (hne : st ≠ [])
    (hl : lastLevel st = some 0) (hpos : 1 ≤ l) :
    popToA l st ≠ [] ∧ lastLevel (popToA l st) = some 0 := by
  unfold popToA
  cases htw : st.takeWhile (fun p => decide (l ≤ p.2)) with
  | nil => exact ⟨hne, hl⟩
  | cons p ps =>
    obtain ⟨q, hq, hq2⟩ : ∃ q, st.getLast? = some q ∧ q.2 = 0 := by
      rw [lastLevel] at hl
      cases hg : st.getLast? with
      | none => rw [hg] at hl; exact absurd hl (by simp)
      | some q =>
        rw [hg] at hl
        exact ⟨q, rfl, by simpa using hl⟩
    have hqmem : q ∈ st := by
      obtain ⟨hne2, hfq⟩ := List.mem_getLast?_eq_getLast (by simpa [Option.mem_def] using hq)
      rw [hfq]
      exact List.getLast_mem hne2
    have hdw : st.dropWhile (fun p => decide (l ≤ p.2)) ≠ [] := by
      intro hcon
      have hall := List.dropWhile_eq_nil_iff.mp hcon q hqmem
      rw [hq2] at hall
      simp at hall
      omega
    refine ⟨attachIntoA_ne_nil _ _ hdw, ?_⟩
    rw [lastLevel_attachIntoA _ _ hdw]
    obtain ⟨t, hts⟩ := @List.dropWhile_suffix _ st (fun p => decide (l ≤ p.2))
    have hgl : (st.dropWhile (fun p => decide (l ≤ p.2))).getLast? = st.getLast? := by
      conv_rhs => rw [← hts]
      rw [List.getLast?_append_of_ne_nil t hdw]
    rw [lastLevel, hgl]
    exact hl

theorem popToA_empty_level (l : Int) (st : List (NodeA × Int))
    (hl : lastLevel st = some 0) (hemp : popToA l st = []) : l ≤ 0 := by
  by_contra hcon
  push_neg at hcon
  have hne : st ≠ [] := by
    intro hst
    rw [hst] at hl
    exact absurd hl (by simp [lastLevel])
  exact (popToA_last l st hne hl (by omega)).1 hemp

theorem parseGoA_isSome (dates : List String) :
    ∀ (pairs : List (Int × Row)) (st : List (NodeA × Int)),
    (∀ p ∈ pairs, 1 ≤ p.1) → st ≠ [] → lastLevel st = some 0 →
    ∃ st2, parseGoA dates pairs st = some st2 ∧ st2 ≠ [] := by
  intro pairs
  induction pairs with
  | nil => intro st _ hne _; exact ⟨st, rfl, hne⟩
  | cons pr rest ih =>
    intro st hpos hne hl
    obtain ⟨l, r⟩ := pr
    have hl1 : 1 ≤ l := hpos (l, r) (by simp)
    by_cases hb : r.nameCell = Cell.blank
    · have hred : parseGoA dates ((l, r) :: rest) st = parseGoA dates rest st := by
        simp [parseGoA, hb]
      rw [hred]
      exact ih st (fun p hp => hpos p (by simp [hp])) hne hl
    · obtain ⟨hpne, hpl⟩ := popToA_last l st hne hl hl1
      cases hpop : popToA l st with
      | nil => exact absurd hpop hpne
      | cons q qs =>
        have hred : parseGoA dates ((l, r) :: rest) st =
            parseGoA dates rest ((mkNodeA dates r, l) :: q :: qs) := by
          simp [parseGoA, hb, hpop]
        rw [hred]
        apply ih _ (fun p hp => hpos p (by simp [hp])) (by simp)
        rw [lastLevel_cons_of_ne_nil _ _ (by simp), ← hpop]
        exact hpl

/-- C10.  In `parse_section`, whenever every declared level is at least 1 the
level-0 sentinel shields the bottom of the ancestor stack: the run never
fails with an empty-stack access (the parse succeeds), and the pop loop can
only empty a sentinel-bottomed stack when the incoming declared level is 0
or less. -/
theorem C10_sentinel_safety :
    (∀ (dates : List String) (levels : List Int) (rows : List Row) (s : String),
      (∀ l ∈ levels, 1 ≤ l) → (parse_section dates levels rows s).isSome = true)
    ∧ (∀ (l : Int) (st : List (NodeA × Int)),
        lastLevel st = some 0 → popToA l st = [] → l ≤ 0) := by
  constructor
  · intro dates levels rows s hpos
    have hzip : ∀ p ∈ levels.zip rows, 1 ≤ p.1 := by
      intro p hp
      obtain ⟨a, b⟩ := p
      exact hpos a (List.of_mem_zip hp).1
    obtain ⟨st2, hst2, hne2⟩ := parseGoA_isSome dates (levels.zip rows)
      [(NodeA.mk s s s [] [], 0)] hzip (by simp) (by rfl)
    rw [parse_section, hst2]
    cases st2 with
    | nil => exact absurd rfl hne2
    | cons p ps => rfl
  · intro l st hl hemp
    exact popToA_empty_level l st hl hemp

/-- Witness for C10: a concrete positive-level run parses successfully, and a
concrete non-positive level (0 or less) is required to empty the stack. -/
theorem C10_sentinel_safety_witness :
    (parse_section ["2024-01"] [1, 2, 1]
      [⟨Cell.text "a", [Cell.num 1]⟩, ⟨Cell.text "b", []⟩, ⟨Cell.text "c", []⟩]
      "S").isSome = true ∧ (-3 : Int) ≤ 0 :=
  ⟨C10_sentinel_safety.1 ["2024-01"] [1, 2, 1]
      [⟨Cell.text "a", [Cell.num 1]⟩, ⟨Cell.text "b", []⟩, ⟨Cell.text "c", []⟩]
      "S" (by decide),
   C10_sentinel_safety.2 (-3) [(NodeA.mk "r" "r" "r" [] [], 0)] (by rfl) (by rfl)⟩

/-! ## Helper lemmas: value extraction -/

theorem valuesB_cons_num (cells : List Cell) (i : Nat) (d : String) (rest : List String)
    (v : Int) (hc : cells.get? i = some (Cell.num v)) :
    valuesB cells i (d :: rest) = (d, v) :: valuesB cells (i + 1) rest := by
  rw [show valuesB cells i (d :: rest) = (match cells.get? i with
      | some (Cell.num v) => (d, v) :: valuesB cells (i + 1) rest
      | _ => valuesB cells (i + 1) rest) from rfl, hc]

theorem valuesB_cons_other (cells : List Cell) (i : Nat) (d : String) (rest : List String)
    (h : ∀ v, cells.get? i ≠ some (Cell.num v)) :
    valuesB cells i (d :: rest) = valuesB cells (i + 1) rest := by
  rw [show valuesB cells i (d :: rest) = (match cells.get? i with
      | some (Cell.num v) => (d, v) :: valuesB cells (i + 1) rest
      | _ => valuesB cells (i + 1) rest) from rfl]
  cases hc : cells.get? i with
  | none => rfl
  | some c =>
    cases c with
    | num v => exact absurd hc (h v)
    | blank => rfl
    | text s => rfl
    | date l => rfl

theorem valuesA_cons_keep (cells : List Cell) (i : Nat) (d : String) (rest : List String)
    (c : Cell) (hc : cells.get? i = some c) (hb : c ≠ Cell.blank) :
    valuesA cells i (d :: rest) = (d, c) :: valuesA cells (i + 1) rest := by
  rw [show valuesA cells i (d :: rest) = (match cells.get? i with
      | some c => if c = Cell.blank then valuesA cells (i + 1) rest
                  else (d, c) :: valuesA cells (i + 1) rest
      | none => valuesA cells (i + 1) rest) from rfl, hc]
  simp [hb]

theorem valuesA_cons_skip (cells : List Cell) (i : Nat) (d : String) (rest : List String)
    (h : cells.get? i = none ∨ cells.get? i = some Cell.blank) :
    valuesA cells i (d :: rest) = valuesA cells (i + 1) rest := by
  rw [show valuesA cells i (d :: rest) = (match cells.get? i with
      | some c => if c = Cell.blank then valuesA cells (i + 1) rest
                  else (d, c) :: valuesA cells (i + 1) rest
      | none => valuesA cells (i + 1) rest) from rfl]
  rcases h with h | h
  · rw [h]
  · rw [h]
    simp

theorem valuesB_keys_mem : ∀ (ds : List String) (cells : List Cell) (i : Nat) (k : String),
    k ∈ (valuesB cells i ds).map Prod.fst → k ∈ ds := by
  intro ds
  induction ds with
  | nil => intro cells i k hk; exact absurd hk (by simp [valuesB])
  | cons d rest ih =>
    intro cells i k hk
    cases hc : cells.get? i with
    | some c =>
      cases c with
      | num v =>
        rw [valuesB_cons_num cells i d rest v hc] at hk
        rcases (by simpa using hk : k = d ∨ k ∈ (valuesB cells (i + 1) rest).map Prod.fst)
          with h | h
        · simp [h]
        · exact List.mem_cons_of_mem d (ih cells (i + 1) k h)
      | blank =>
        rw [valuesB_cons_other cells i d rest (by intro v; rw [hc]; simp)] at hk
        exact List.mem_cons_of_mem d (ih cells (i + 1) k hk)
      | text s =>
        rw [valuesB_cons_other cells i d rest (by intro v; rw [hc]; simp)] at hk
        exact List.mem_cons_of_mem d (ih cells (i + 1) k hk)
      | date l =>
        rw [valuesB_cons_other cells i d rest (by intro v; rw [hc]; simp)] at hk
        exact List.mem_cons_of_mem d (ih cells (i + 1) k hk)
    | none =>
      rw [valuesB_cons_other cells i d rest (by intro v; rw [hc]; simp)] at hk
      exact List.mem_cons_of_mem d (ih cells (i + 1) k hk)

theorem valuesA_keys_mem : ∀ (ds : List String) (cells : List Cell) (i : Nat) (k : String),
    k ∈ (valuesA cells i ds).map Prod.fst → k ∈ ds := by
  intro ds
  induction ds with
  | nil => intro cells i k hk; exact absurd hk (by simp [valuesA])
  | cons d rest ih =>
    intro cells i k hk
    cases hc : cells.get? i with
    | some c =>
      by_cases hb : c = Cell.blank
      · rw [valuesA_cons_skip cells i d rest (Or.inr (hb ▸ hc))] at hk
        exact List.mem_cons_of_mem d (ih cells (i + 1) k hk)
      · rw [valuesA_cons_keep cells i d rest c hc hb] at hk
        rcases (by simpa using hk : k = d ∨ k ∈ (valuesA cells (i + 1) rest).map Prod.fst)
          with h | h
        · simp [h]
        · exact List.mem_cons_of_mem d (ih cells (i + 1) k h)
    | none =>
      rw [valuesA_cons_skip cells i d rest (Or.inl hc)] at hk
      exact List.mem_cons_of_mem d (ih cells (i + 1) k hk)

theorem valuesB_key_iff : ∀ (ds : List String) (cells : List Cell) (i j : Nat)
    (hj : j < ds.length), ds.Nodup →
    (ds.get ⟨j, hj⟩ ∈ (valuesB cells i ds).map Prod.fst ↔
      ∃ v, cells.get? (i + j) = some (Cell.num v)) := by
  intro ds
  induction ds with
  | nil => intro cells i j hj; simp at hj
  | cons d rest ih =>
    intro cells i j hj hnd
    have hdrest : d ∉ rest := (List.nodup_cons.mp hnd).1
    have hndrest : rest.Nodup := (List.nodup_cons.mp hnd).2
    cases j with
    | zero =>
      have hget : (d :: rest).get ⟨0, hj⟩ = d := rfl
      rw [hget]
      cases hc : cells.get? i with
      | some c =>
        cases c with
        | num v =>
          rw [valuesB_cons_num cells i d rest v hc]
          constructor
          · intro _
            exact ⟨v, by simpa using hc⟩
          · intro _
            simp
        | blank =>
          rw [valuesB_cons_other cells i d rest (by intro v; rw [hc]; simp)]
          constructor
          · intro hmem
            exact absurd (valuesB_keys_mem rest cells (i + 1) d hmem) hdrest
          · intro ⟨v, hv⟩
            rw [Nat.add_zero] at hv
            rw [hc] at hv
            exact absurd hv (by simp)
        | text s =>
          rw [valuesB_cons_other cells i d rest (by intro v; rw [hc]; simp)]
          constructor
          · intro hmem
            exact absurd (valuesB_keys_mem rest cells (i + 1) d hmem) hdrest
          · intro ⟨v, hv⟩
            rw [Nat.add_zero] at hv
            rw [hc] at hv
            exact absurd hv (by simp)
        | date l =>
          rw [valuesB_cons_other cells i d rest (by intro v; rw [hc]; simp)]
          constructor
          · intro hmem
            exact absurd (valuesB_keys_mem rest cells (i + 1) d hmem) hdrest
          · intro ⟨v, hv⟩
            rw [Nat.add_zero] at hv
            rw [hc] at hv
            exact absurd hv (by simp)
      | none =>
        rw [valuesB_cons_other cells i d rest (by intro v; rw [hc]; simp)]
        constructor
        · intro hmem
          exact absurd (valuesB_keys_mem rest cells (i + 1) d hmem) hdrest
        · intro ⟨v, hv⟩
          rw [Nat.add_zero] at hv
          rw [hc] at hv
          exact absurd hv (by simp)
    | succ j =>
      have hj2 : j < rest.length := by simpa using hj
      have hget : (d :: rest).get ⟨j + 1, hj⟩ = rest.get ⟨j, hj2⟩ := rfl
      rw [hget]
      have hadd : i + 1 + j = i + (j + 1) := by omega
      have hih := ih cells (i + 1) j hj2 hndrest
      rw [hadd] at hih
      cases hc : cells.get? i with
      | some c =>
        cases c with
        | num v =>
          rw [valuesB_cons_num cells i d rest v hc]
          have hne : rest.get ⟨j, hj2⟩ ≠ d := by
            intro hcon
            exact hdrest (hcon ▸ List.get_mem rest j hj2)
          constructor
          · intro hmem
            rcases (by simpa using hmem :
                rest.get ⟨j, hj2⟩ = d ∨
                  rest.get ⟨j, hj2⟩ ∈ (valuesB cells (i + 1) rest).map Prod.fst) with h | h
            · exact absurd h hne
            · exact hih.mp h
          · intro hv
            have hm := hih.mpr hv
            exact List.mem_cons_of_mem d hm
        | blank =>
          rw [valuesB_cons_other cells i d rest (by intro v; rw [hc]; simp)]
          exact hih
        | text s =>
          rw [valuesB_cons_other cells i d rest (by intro v; rw [hc]; simp)]
          exact hih
        | date l =>
          rw [valuesB_cons_other cells i d rest (by intro v; rw [hc]; simp)]
          exact hih
      | none =>
        rw [valuesB_cons_other cells i d rest (by intro v; rw [hc]; simp)]
        exact hih

theorem valuesA_key_iff : ∀ (ds : List String) (cells : List Cell) (i j : Nat)
    (hj : j < ds.length), ds.Nodup →
    (ds.get ⟨j, hj⟩ ∈ (valuesA cells i ds).map Prod.fst ↔
      ∃ c, cells.get? (i + j) = some c ∧ c ≠ Cell.blank) := by
  intro ds
  induction ds with
  | nil => intro cells i j hj; simp at hj
  | cons d rest ih =>
    intro cells i j hj hnd
    have hdrest : d ∉ rest := (List.nodup_cons.mp hnd).1
    have hndrest : rest.Nodup := (List.nodup_cons.mp hnd).2
    cases j with
    | zero =>
      have hget : (d :: rest).get ⟨0, hj⟩ = d := rfl
      rw [hget]
      cases hc : cells.get? i with
      | some c =>
        by_cases hb : c = Cell.blank
        · rw [valuesA_cons_skip cells i d rest (Or.inr (hb ▸ hc))]
          constructor
          · intro hmem
            exact absurd (valuesA_keys_mem rest cells (i + 1) d hmem) hdrest
          · rintro ⟨c2, hc2, hb2⟩
            rw [Nat.add_zero, hc] at hc2
            rw [hb] at hc2
            exact absurd (by simpa using hc2.symm) hb2
        · rw [valuesA_cons_keep cells i d rest c hc hb]
          constructor
          · intro _
            exact ⟨c, by simpa using hc, hb⟩
          · intro _
            simp
      | none =>
        rw [valuesA_cons_skip cells i d rest (Or.inl hc)]
        constructor
        · intro hmem
          exact absurd (valuesA_keys_mem rest cells (i + 1) d hmem) hdrest
        · rintro ⟨c2, hc2, -⟩
          rw [Nat.add_zero, hc] at hc2
          exact Option.noConfusion hc2
    | succ j =>
      have hj2 : j < rest.length := by simpa using hj
      have hget : (d :: rest).get ⟨j + 1, hj⟩ = rest.get ⟨j, hj2⟩ := rfl
      rw [hget]
      have hadd : i + 1 + j = i + (j + 1) := by omega
      have hih := ih cells (i + 1) j hj2 hndrest
      rw [hadd] at hih
      cases hc : cells.get? i with
      | some c =>
        by_cases hb : c = Cell.blank
        · rw [valuesA_cons_skip cells i d rest (Or.inr (hb ▸ hc))]
          exact hih
        · rw [valuesA_cons_keep cells i d rest c hc hb]
          have hne : rest.get ⟨j, hj2⟩ ≠ d := by
            intro hcon
            exact hdrest (hcon ▸ List.get_mem rest j hj2)
          constructor
          · intro hmem
            rcases (by simpa using hmem :
                rest.get ⟨j, hj2⟩ = d ∨
                  rest.get ⟨j, hj2⟩ ∈ (valuesA cells (i + 1) rest).map Prod.fst) with h | h
            · exact absurd h hne
            · exact hih.mp h
          · intro hv
            exact List.mem_cons_of_mem d (hih.mpr hv)
      | none =>
        rw [valuesA_cons_skip cells i d rest (Or.inl hc)]
        exact hih

/-- C4 (amended).  Value inclusion per period: in `extract_hierarchy_data`
(`valuesB`, also the behaviour of `dataframe_parser` and `openpyxl_parser`) a
period key appears in a node's values exactly when the corresponding cell is
present and numeric; in `extract_json.parse_section` (`valuesA`) the key
appears exactly when the cell is present and non-blank — a textual
non-numeric cell is stored raw there rather than omitted.  No error arises
either way, and the concrete missing-value row (10 for 2024-01, blank for
2024-02) yields exactly the 2024-01 entry in both variants. -/
theorem C4_values_inclusion (ds : List String) (cells : List Cell) (j : Nat)
    (hj : j < ds.length) (hnd : ds.Nodup) :
    (ds.get ⟨j, hj⟩ ∈ (valuesB cells 0 ds).map Prod.fst ↔
      ∃ v, cells.get? j = some (Cell.num v))
    ∧ (ds.get ⟨j, hj⟩ ∈ (valuesA cells 0 ds).map Prod.fst ↔
      ∃ c, cells.get? j = some c ∧ c ≠ Cell.blank)
    ∧ valuesB [Cell.num 10, Cell.blank] 0 ["2024-01", "2024-02"] = [("2024-01", 10)]
    ∧ valuesA [Cell.num 10, Cell.blank] 0 ["2024-01", "2024-02"] =
        [("2024-01", Cell.num 10)] := by
  refine ⟨?_, ?_, by decide, by decide⟩
  · have h := valuesB_key_iff ds cells 0 j hj hnd
    simpa using h
  · have h := valuesA_key_iff ds cells 0 j hj hnd
    simpa using h

/-- Witness for C4 on the missing-value fixture. -/
theorem C4_values_inclusion_witness :
    ((["2024-01", "2024-02"] : List String).get ⟨0, by decide⟩ ∈
        (valuesB [Cell.num 10, Cell.blank] 0 ["2024-01", "2024-02"]).map Prod.fst ↔
      ∃ v, ([Cell.num 10, Cell.blank] : List Cell).get? 0 = some (Cell.num v)) ∧
    ((["2024-01", "2024-02"] : List String).get ⟨0, by decide⟩ ∈
        (valuesA [Cell.num 10, Cell.blank] 0 ["2024-01", "2024-02"]).map Prod.fst ↔
      ∃ c, ([Cell.num 10, Cell.blank] : List Cell).get? 0 = some c ∧ c ≠ Cell.blank) ∧
    valuesB [Cell.num 10, Cell.blank] 0 ["2024-01", "2024-02"] = [("2024-01", 10)] ∧
    valuesA [Cell.num 10, Cell.blank] 0 ["2024-01", "2024-02"] =
      [("2024-01", Cell.num 10)] :=
  C4_values_inclusion ["2024-01", "2024-02"] [Cell.num 10, Cell.blank] 0
    (by decide) (by decide)

/-- Counterexample for C4 as frozen: in `extract_json.parse_section` a
present but TEXTUAL (non-numeric) data cell still produces a key in the
node's values map (with the raw value), so the values-key-iff-numeric claim
fails for the cited `extract_json` lines. -/
theorem C4_counterexample :
    (parse_section ["2024-01"] [1] [⟨Cell.text "A", [Cell.text "abc"]⟩] "S").map
        (fun t => t.children.map NodeA.values) =
      some [[("2024-01", Cell.text "abc")]] ∧
    (parse_section ["2024-01"] [1] [⟨Cell.text "A", [Cell.text "abc"]⟩] "S").map
        (fun t => t.children.map NodeA.values) ≠ some [[]] := by
  exact ⟨by decide, by decide⟩

/-- C5 (amended).  Bilingual split: in `hierarchy_mapper` (and
`dataframe_parser` / `openpyxl_parser`), splitting on `" / "` gives
`("Eignir", "Assets")` with separator and `(name, "")` without; in
`extract_json.parse_section`, splitting on `"/"` gives `("Eignir", "Assets")`
with separator but `(name, name)` without — the secondary name defaults to
the FULL label there, not to the empty string. -/
theorem C5_bilingual_split :
    (∀ s : String, splitOnceL " / ".data s.data = none → splitNameB s = (s, ""))
    ∧ splitNameB "Eignir / Assets" = ("Eignir", "Assets")
    ∧ splitNameB "TotalOnly" = ("TotalOnly", "")
    ∧ splitNameA "Eignir / Assets" = ("Eignir", "Assets")
    ∧ (∀ s : String, splitOnceL "/".data s.data = none → splitNameA s = (s, s)) := by
  refine ⟨?_, by decide, by decide, by decide, ?_⟩
  · intro s h
    simp [splitNameB, h]
  · intro s h
    simp [splitNameA, h]

/-- Witness for C5: both general separator-free conclusions at concrete
labels, via the theorem. -/
theorem C5_bilingual_split_witness :
    splitNameB "TotalOnly" = ("TotalOnly", "") ∧ splitNameA "NoSep" = ("NoSep", "NoSep") :=
  ⟨C5_bilingual_split.1 "TotalOnly" (by decide),
   C5_bilingual_split.2.2.2.2 "NoSep" (by decide)⟩

/-- Counterexample for C5 as frozen: `extract_json.parse_section` does not
leave the secondary name empty on a separator-free label — both locale names
default to the full label. -/
theorem C5_counterexample :
    (splitNameA "TotalOnly").2 = "TotalOnly" ∧ (splitNameA "TotalOnly").2 ≠ "" := by
  exact ⟨by decide, by decide⟩

/-- C6 (amended).  Period-axis extraction: in `hierarchy_mapper` (and the
other openpyxl-based parsers) unparseable header cells are skipped without
error, so the axis is exactly the successfully parsed headers in discovery
order, and value columns are then matched positionally (an unparsed header
shifts every later value one column left, as the concrete conjunct shows:
the second axis entry takes the value under the unparseable header).  In
`extract_json.extract_nested_json`, however, every non-null header cell
contributes a label — unparseable headers are stringified, not skipped. -/
theorem C6_period_axis :
    (∀ hs : List HCell, mapper_dates hs = hs.filterMap
      (fun h => match h with
        | HCell.parsed l => some l
        | _ => none))
    ∧ (∀ hs : List HCell, extract_json_dates hs = hs.filterMap
      (fun h => match h with
        | HCell.blank => none
        | HCell.parsed l => some l
        | HCell.unparsed s => some s))
    ∧ valuesB [Cell.num 10, Cell.num 20, Cell.num 30] 0
        (mapper_dates [HCell.parsed "2024-01", HCell.unparsed "x", HCell.parsed "2024-07"]) =
      [("2024-01", 10), ("2024-07", 20)] := by
  refine ⟨?_, ?_, by decide⟩
  · intro hs
    induction hs with
    | nil => rfl
    | cons h rest ih => cases h <;> simp [mapper_dates, ih]
  · intro hs
    induction hs with
    | nil => rfl
    | cons h rest ih => cases h <;> simp [extract_json_dates, ih]

/-- Counterexample for C6 as frozen: in `extract_json`'s date-row scan a
header cell that fails to parse as a date is NOT skipped — its raw string
joins the axis. -/
theorem C6_counterexample :
    extract_json_dates [HCell.parsed "2024-01-01", HCell.unparsed "foo"] =
      ["2024-01-01", "foo"] ∧
    extract_json_dates [HCell.parsed "2024-01-01", HCell.unparsed "foo"] ≠
      ["2024-01-01"] := by
  exact ⟨by decide, by decide⟩

/-- C7.  The section-switch condition of `detect_hierarchy` fires on a
`SKULDIR` marker even when the row is NOT beyond the minimum offset
(`row_idx > start_row + 5`): at `row_idx = start_row = 10` the marker row
"SKULDIR / LIABILITIES" satisfies the condition although `10 + 5 < 10` is
false, because Python's `and` binds tighter than `or` and leaves the
`SKULDIR` disjunct unguarded. -/
theorem C7_switch_guard_bug :
    detect_hierarchy_switch "SKULDIR / LIABILITIES" 10 10 = true ∧ ¬ (10 + 5 < 10) := by
  exact ⟨by decide, by decide⟩

/-- Counterexample for C2 as frozen: on the declared run [1,2,3,2,1] the
first level-1 root receives TWO level-2 children (the level-2 rows before
and after the level-3 row both resolve to it), not exactly one. -/
theorem C2_counterexample :
    (parse_section ["2024-01", "2024-02"] [1, 2, 3, 2, 1]
        [⟨Cell.text "a", [Cell.num 10, Cell.num 20]⟩,
         ⟨Cell.text "b", [Cell.num 10, Cell.num 20]⟩,
         ⟨Cell.text "c", [Cell.num 10, Cell.num 20]⟩,
         ⟨Cell.text "d", [Cell.num 10, Cell.num 20]⟩,
         ⟨Cell.text "e", [Cell.num 10, Cell.num 20]⟩] "S").map
        (fun t => t.children.map (fun c => c.children.length)) = some [2, 0] ∧
    (parse_section ["2024-01", "2024-02"] [1, 2, 3, 2, 1]
        [⟨Cell.text "a", [Cell.num 10, Cell.num 20]⟩,
         ⟨Cell.text "b", [Cell.num 10, Cell.num 20]⟩,
         ⟨Cell.text "c", [Cell.num 10, Cell.num 20]⟩,
         ⟨Cell.text "d", [Cell.num 10, Cell.num 20]⟩,
         ⟨Cell.text "e", [Cell.num 10, Cell.num 20]⟩] "S").map
        (fun t => t.children.map (fun c => c.children.length)) ≠ some [1, 0] := by
  exact ⟨by decide, by decide⟩

/-- C2 (amended).  Concrete scenario [1,2,3,2,1] with periods 2024-01/2024-02
and numeric values 10/20: both the stack parser (`parse_section`) and the
`node_map` builder (`build_section_hierarchy` over `extract_section_rows`)
produce two level-1 roots; the FIRST root has exactly TWO level-2 children —
the first of which has exactly one level-3 child and the second none — the
second root has no children, and every node's values map is
{2024-01: 10, 2024-02: 20}. -/
theorem C2_concrete_tree :
    parse_section ["2024-01", "2024-02"] [1, 2, 3, 2, 1]
        [⟨Cell.text "a", [Cell.num 10, Cell.num 20]⟩,
         ⟨Cell.text "b", [Cell.num 10, Cell.num 20]⟩,
         ⟨Cell.text "c", [Cell.num 10, Cell.num 20]⟩,
         ⟨Cell.text "d", [Cell.num 10, Cell.num 20]⟩,
         ⟨Cell.text "e", [Cell.num 10, Cell.num 20]⟩] "S" =
      some (NodeA.mk "S" "S" "S" []
        [NodeA.mk "a" "a" "a" [("2024-01", Cell.num 10), ("2024-02", Cell.num 20)]
          [NodeA.mk "b" "b" "b" [("2024-01", Cell.num 10), ("2024-02", Cell.num 20)]
            [NodeA.mk "c" "c" "c" [("2024-01", Cell.num 10), ("2024-02", Cell.num 20)] []],
           NodeA.mk "d" "d" "d" [("2024-01", Cell.num 10), ("2024-02", Cell.num 20)] []],
         NodeA.mk "e" "e" "e" [("2024-01", Cell.num 10), ("2024-02", Cell.num 20)] []]) ∧
    build_section_hierarchy (extract_section_rows ["2024-01", "2024-02"]
        ([1, 2, 3, 2, 1].zip
          [⟨Cell.text "a", [Cell.num 10, Cell.num 20]⟩,
           ⟨Cell.text "b", [Cell.num 10, Cell.num 20]⟩,
           ⟨Cell.text "c", [Cell.num 10, Cell.num 20]⟩,
           ⟨Cell.text "d", [Cell.num 10, Cell.num 20]⟩,
           ⟨Cell.text "e", [Cell.num 10, Cell.num 20]⟩]) 0) =
      [NodeB.mk "row_0" "a" "a" "" 1 [("2024-01", 10), ("2024-02", 20)]
        [NodeB.mk "row_1" "b" "b" "" 2 [("2024-01", 10), ("2024-02", 20)]
          [NodeB.mk "row_2" "c" "c" "" 3 [("2024-01", 10), ("2024-02", 20)] []],
         NodeB.mk "row_3" "d" "d" "" 2 [("2024-01", 10), ("2024-02", 20)] []],
       NodeB.mk "row_4" "e" "e" "" 1 [("2024-01", 10), ("2024-02", 20)] []] := by
  exact ⟨rfl, rfl⟩

/-- Counterexample for C1 as frozen: `build_section_hierarchy` DROPS a row
whose level jumps forward by more than one (level 1 directly followed by
level 3) — the forest keeps only the level-1 node, childless, so no node is
created and attached for the jumped row. -/
theorem C1_counterexample :
    (build_section_hierarchy
        [⟨"a", 1, 0, "a", "", []⟩, ⟨"b", 3, 1, "b", "", []⟩]).map
      (fun n => (n.name, n.children.length)) = [("a", 0)] ∧
    (build_section_hierarchy
        [⟨"a", 1, 0, "a", "", []⟩, ⟨"b", 3, 1, "b", "", []⟩]).length = 1 := by
  exact ⟨by decide, by decide⟩

theorem popToA_noop (l t : Int) (p : NodeA) (rest : List (NodeA × Int)) (h : ¬ l ≤ t) :
    popToA l ((p, t) :: rest) = (p, t) :: rest := by
  unfold popToA
  rw [List.takeWhile_cons]
  simp [h]

/-- C1 (amended).  On a forward level jump of more than one, the three
implementations disagree: `extract_json.parse_section` still creates the
node and attaches it to the node on top of the ancestor stack (for any run
`[1, k]` with `k ≥ 3` the second node becomes the child of the first);
`dataframe_parser` creates the row but with an EMPTY parent (level `k - 1`
is not in `current_parents`); and `hierarchy_mapper`'s
`build_section_hierarchy` silently drops the node (see the counterexample). -/
theorem C1_jump_attaches (dates : List String) (k : Int) (hk : 3 ≤ k) (r1 r2 : Row)
    (h1 : r1.nameCell ≠ Cell.blank) (h2 : r2.nameCell ≠ Cell.blank) (s : String) :
    parse_section dates [1, k] [r1, r2] s =
      some (NodeA.mk s s s [] [(mkNodeA dates r1).addChild (mkNodeA dates r2)]) ∧
    (emitSection ["2024-01"] "asset"
        ([(1 : Int), 3].zip
          [⟨Cell.text "p", [Cell.num 1]⟩, ⟨Cell.text "q", [Cell.num 2]⟩]) []).map
      (fun fr => (fr.name, fr.parent)) = [("p", none), ("q", none)] := by
  refine ⟨?_, by decide⟩
  have hp2 : popToA k [(mkNodeA dates r1, 1), (NodeA.mk s s s [] [], 0)] =
      [(mkNodeA dates r1, 1), (NodeA.mk s s s [] [], 0)] :=
    popToA_noop k 1 _ _ (by omega)
  have e1 : parse_section dates [1, k] [r1, r2] s =
      (match parseGoA dates [(1, r1), (k, r2)] [(NodeA.mk s s s [] [], 0)] with
       | some (p :: ps) => some (foldPopsA p.1 ps)
       | _ => none) := rfl
  have e2 : parseGoA dates [(1, r1), (k, r2)] [(NodeA.mk s s s [] [], 0)] =
      parseGoA dates [(k, r2)] [(mkNodeA dates r1, 1), (NodeA.mk s s s [] [], 0)] := by
    rw [show parseGoA dates [(1, r1), (k, r2)] [(NodeA.mk s s s [] [], 0)] =
        (if r1.nameCell = Cell.blank then
          parseGoA dates [(k, r2)] [(NodeA.mk s s s [] [], 0)]
        else
          match popToA 1 [(NodeA.mk s s s [] [], 0)] with
          | [] => none
          | st' => parseGoA dates [(k, r2)] ((mkNodeA dates r1, 1) :: st')) from rfl,
      if_neg h1]
    rfl
  have e3 : parseGoA dates [(k, r2)] [(mkNodeA dates r1, 1), (NodeA.mk s s s [] [], 0)] =
      some [(mkNodeA dates r2, k), (mkNodeA dates r1, 1), (NodeA.mk s s s [] [], 0)] := by
    rw [show parseGoA dates [(k, r2)] [(mkNodeA dates r1, 1), (NodeA.mk s s s [] [], 0)] =
        (if r2.nameCell = Cell.blank then
          parseGoA dates [] [(mkNodeA dates r1, 1), (NodeA.mk s s s [] [], 0)]
        else
          match popToA k [(mkNodeA dates r1, 1), (NodeA.mk s s s [] [], 0)] with
          | [] => none
          | st' => parseGoA dates [] ((mkNodeA dates r2, k) :: st')) from rfl,
      if_neg h2, hp2]
    rfl
  rw [e1, e2, e3]
  rfl

/-- Witness for C1 (amended) at `k = 3` with concrete nonblank rows. -/
theorem C1_jump_attaches_witness :
    parse_section ["2024-01"] [1, 3]
        [⟨Cell.text "p", [Cell.num 1]⟩, ⟨Cell.text "q", [Cell.num 2]⟩] "S" =
      some (NodeA.mk "S" "S" "S" []
        [(mkNodeA ["2024-01"] ⟨Cell.text "p", [Cell.num 1]⟩).addChild
          (mkNodeA ["2024-01"] ⟨Cell.text "q", [Cell.num 2]⟩)]) ∧
    (emitSection ["2024-01"] "asset"
        ([(1 : Int), 3].zip
          [⟨Cell.text "p", [Cell.num 1]⟩, ⟨Cell.text "q", [Cell.num 2]⟩]) []).map
      (fun fr => (fr.name, fr.parent)) = [("p", none), ("q", none)] :=
  C1_jump_attaches ["2024-01"] 3 (by decide)
    ⟨Cell.text "p", [Cell.num 1]⟩ ⟨Cell.text "q", [Cell.num 2]⟩
    (by decide) (by decide) "S"

/-- C9.  Section independence in `extract_nested_json`: two extractions that
agree on the period axis and the assets run produce the same assets tree, no
matter how the liabilities run differs (each `parse_section` call owns a
fresh ancestor stack). -/
theorem C9_section_independence (dates : List String)
    (aH : List Int) (aR : List Row) (lH lH2 : List Int) (lR lR2 : List Row)
    (p q : NodeA × NodeA)
    (h1 : extract_nested_json dates aH aR lH lR = some p)
    (h2 : extract_nested_json dates aH aR lH2 lR2 = some q) :
    p.1 = q.1 := by
  unfold extract_nested_json at h1 h2
  cases ha : parse_section dates aH aR "EIGNIR / ASSETS" with
  | none =>
    rw [ha] at h1
    exact Option.noConfusion h1
  | some a =>
    rw [ha] at h1 h2
    cases hl1 : parse_section dates lH lR "SKULDIR / LIABILITIES" with
    | none =>
      rw [hl1] at h1
      exact Option.noConfusion h1
    | some b =>
      rw [hl1] at h1
      cases hl2 : parse_section dates lH2 lR2 "SKULDIR / LIABILITIES" with
      | none =>
        rw [hl2] at h2
        exact Option.noConfusion h2
      | some c =>
        rw [hl2] at h2
        have hp : (a, b) = p := Option.some.inj h1
        have hq : (a, c) = q := Option.some.inj h2
        rw [← hp, ← hq]

/-- Witness for C9: two concrete runs sharing the assets inputs, one with a
two-level liabilities run that repeats level values, one with an empty
liabilities run; the assets trees coincide. -/
theorem C9_section_independence_witness :
    extract_nested_json [] [1] [⟨Cell.text "A", []⟩]
        [1, 2] [⟨Cell.text "L1", []⟩, ⟨Cell.text "L2", []⟩] =
      some ((NodeA.mk "EIGNIR / ASSETS" "EIGNIR / ASSETS" "EIGNIR / ASSETS" []
              [NodeA.mk "A" "A" "A" [] []],
             NodeA.mk "SKULDIR / LIABILITIES" "SKULDIR / LIABILITIES" "SKULDIR / LIABILITIES" []
              [NodeA.mk "L1" "L1" "L1" [] [NodeA.mk "L2" "L2" "L2" [] []]])) ∧
    extract_nested_json [] [1] [⟨Cell.text "A", []⟩] [] [] =
      some ((NodeA.mk "EIGNIR / ASSETS" "EIGNIR / ASSETS" "EIGNIR / ASSETS" []
              [NodeA.mk "A" "A" "A" [] []],
             NodeA.mk "SKULDIR / LIABILITIES" "SKULDIR / LIABILITIES" "SKULDIR / LIABILITIES" []
              [])) ∧
    ((NodeA.mk "EIGNIR / ASSETS" "EIGNIR / ASSETS" "EIGNIR / ASSETS" []
        [NodeA.mk "A" "A" "A" [] []],
      NodeA.mk "SKULDIR / LIABILITIES" "SKULDIR / LIABILITIES" "SKULDIR / LIABILITIES" []
        [NodeA.mk "L1" "L1" "L1" [] [NodeA.mk "L2" "L2" "L2" [] []]]) :
        NodeA × NodeA).1 =
    ((NodeA.mk "EIGNIR / ASSETS" "EIGNIR / ASSETS" "EIGNIR / ASSETS" []
        [NodeA.mk "A" "A" "A" [] []],
      NodeA.mk "SKULDIR / LIABILITIES" "SKULDIR / LIABILITIES" "SKULDIR / LIABILITIES" []
        []) : NodeA × NodeA).1 :=
  ⟨rfl, rfl,
   C9_section_independence [] [1] [⟨Cell.text "A", []⟩] [1, 2] [] 
     [⟨Cell.text "L1", []⟩, ⟨Cell.text "L2", []⟩] []
     _ _ rfl rfl⟩

/-! ## Helper lemmas: the sort key of `parse_excel_to_dataframe` -/

theorem lexLt_irrefl : ∀ (a : List Char), lexLt a a = false := by
  intro a
  induction a with
  | nil => rfl
  | cons x xs ih => simp [lexLt, ih]

theorem lexLt_trans : ∀ (a b c : List Char),
    lexLt a b = true → lexLt b c = true → lexLt a c = true := by
  intro a
  induction a with
  | nil =>
    intro b c h1 h2
    cases b with
    | nil => exact absurd h1 (by simp [lexLt])
    | cons y ys =>
      cases c with
      | nil => exact absurd h2 (by simp [lexLt])
      | cons z zs => rfl
  | cons x xs ih =>
    intro b c h1 h2
    cases b with
    | nil => exact absurd h1 (by simp [lexLt])
    | cons y ys =>
      cases c with
      | nil => exact absurd h2 (by simp [lexLt])
      | cons z zs =>
        simp only [lexLt, Bool.or_eq_true, Bool.and_eq_true, decide_eq_true_eq,
          beq_iff_eq] at h1 h2 ⊢
        rcases h1 with h1 | ⟨h1e, h1l⟩
        · rcases h2 with h2 | ⟨h2e, h2l⟩
          · exact Or.inl (by omega)
          · exact Or.inl (by omega)
        · rcases h2 with h2 | ⟨h2e, h2l⟩
          · exact Or.inl (by omega)
          · exact Or.inr ⟨by omega, ih ys zs h1l h2l⟩

theorem lexLt_conn : ∀ (a b : List Char),
    lexLt a b = false → lexLt b a = false → a = b := by
  intro a
  induction a with
  | nil =>
    intro b h1 h2
    cases b with
    | nil => rfl
    | cons y ys => exact absurd h1 (by simp [lexLt])
  | cons x xs ih =>
    intro b h1 h2
    cases b with
    | nil => exact absurd h2 (by simp [lexLt])
    | cons y ys =>
      have hu1 : lexLt (x :: xs) (y :: ys) =
          (decide (x.toNat < y.toNat) || (x.toNat == y.toNat && lexLt xs ys)) := rfl
      have hu2 : lexLt (y :: ys) (x :: xs) =
          (decide (y.toNat < x.toNat) || (y.toNat == x.toNat && lexLt ys xs)) := rfl
      rw [hu1] at h1
      rw [hu2] at h2
      have hxy : ¬ x.toNat < y.toNat := by
        intro hc
        simp [hc] at h1
      have hyx : ¬ y.toNat < x.toNat := by
        intro hc
        simp [hc] at h2
      have hEq : x.toNat = y.toNat := by omega
      have hx : x = y := Char.eq_of_val_eq (UInt32.ext hEq)
      have hlex1 : lexLt xs ys = false := by
        simp [hxy, hEq] at h1
        exact h1
      have hlex2 : lexLt ys xs = false := by
        simp [hyx, hEq] at h2
        exact h2
      rw [hx, ih ys hlex1 hlex2]

theorem lexLt_tri (a b : List Char) : lexLt a b = true ∨ a = b ∨ lexLt b a = true := by
  by_cases h1 : lexLt a b = true
  · exact Or.inl h1
  · by_cases h2 : lexLt b a = true
    · exact Or.inr (Or.inr h2)
    · exact Or.inr (Or.inl (lexLt_conn a b (by simpa using h1) (by simpa using h2)))

theorem lexLt_asymm (a b : List Char) (h : lexLt a b = true) : lexLt b a = false := by
  by_contra hc
  have h2 : lexLt b a = true := by simpa using hc
  have h3 := lexLt_trans a b a h h2
  rw [lexLt_irrefl] at h3
  exact Bool.noConfusion h3

theorem sortKeyLE_iff (a b : FlatRow) : sortKeyLE a b = true ↔
    (lexLt a.date.data b.date.data = true ∨
      (a.date.data = b.date.data ∧ (lexLt a.typ.data b.typ.data = true ∨
        (a.typ.data = b.typ.data ∧ lexLt b.name.data a.name.data = false)))) := by
  unfold sortKeyLE
  by_cases d1 : lexLt a.date.data b.date.data = true
  · simp [d1]
  · rw [if_neg d1]
    by_cases d2 : lexLt b.date.data a.date.data = true
    · rw [if_pos d2]
      simp only [Bool.false_eq_true, false_iff]
      rintro (h | ⟨he, -⟩)
      · exact d1 h
      · rw [he, lexLt_irrefl] at d2
        exact Bool.noConfusion d2
    · have hde : a.date.data = b.date.data :=
        lexLt_conn _ _ (by simpa using d1) (by simpa using d2)
      rw [if_neg d2]
      by_cases t1 : lexLt a.typ.data b.typ.data = true
      · simp [t1, hde, d1]
      · rw [if_neg t1]
        by_cases t2 : lexLt b.typ.data a.typ.data = true
        · rw [if_pos t2]
          simp only [Bool.false_eq_true, false_iff]
          rintro (h | ⟨-, h | ⟨he, -⟩⟩)
          · exact d1 h
          · exact t1 h
          · rw [he, lexLt_irrefl] at t2
            exact Bool.noConfusion t2
        · have hte : a.typ.data = b.typ.data :=
            lexLt_conn _ _ (by simpa using t1) (by simpa using t2)
          rw [if_neg t2]
          by_cases n1 : lexLt a.name.data b.name.data = true
          · rw [if_pos n1]
            simp [hde, hte, lexLt_asymm _ _ n1]
          · rw [if_neg n1]
            by_cases n2 : lexLt b.name.data a.name.data = true
            · rw [if_pos n2]
              simp only [Bool.false_eq_true, false_iff]
              rintro (h | ⟨-, h | ⟨-, hn⟩⟩)
              · exact d1 h
              · exact t1 h
              · rw [n2] at hn
                exact Bool.noConfusion hn
            · rw [if_neg n2]
              simp [hde, hte, d1, t1, (by simpa using n2 : lexLt b.name.data a.name.data = false)]

theorem keyRelC_total (a b : FlatRow) : keyRelC a b ∨ keyRelC b a := by
  unfold keyRelC
  rcases lexLt_tri a.date.data b.date.data with h | h | h
  · exact Or.inl ((sortKeyLE_iff a b).mpr (Or.inl h))
  · rcases lexLt_tri a.typ.data b.typ.data with h2 | h2 | h2
    · exact Or.inl ((sortKeyLE_iff a b).mpr (Or.inr ⟨h, Or.inl h2⟩))
    · by_cases h3 : lexLt b.name.data a.name.data = true
      · exact Or.inr ((sortKeyLE_iff b a).mpr
          (Or.inr ⟨h.symm, Or.inr ⟨h2.symm, lexLt_asymm _ _ h3⟩⟩))
      · exact Or.inl ((sortKeyLE_iff a b).mpr
          (Or.inr ⟨h, Or.inr ⟨h2, by simpa using h3⟩⟩))
    · exact Or.inr ((sortKeyLE_iff b a).mpr (Or.inr ⟨h.symm, Or.inl h2⟩))
  · exact Or.inr ((sortKeyLE_iff b a).mpr (Or.inl h))

theorem lexNLt_trans (x y z : List Char)
    (h1 : lexLt y x = false) (h2 : lexLt z y = false) : lexLt z x = false := by
  by_contra hc
  have hzx : lexLt z x = true := by simpa using hc
  rcases lexLt_tri y z with hyz | hyz | hyz
  · have := lexLt_trans y z x hyz hzx
    rw [h1] at this
    exact Bool.noConfusion this
  · rw [← hyz] at hzx
    rw [h1] at hzx
    exact Bool.noConfusion hzx
  · rw [h2] at hyz
    exact Bool.noConfusion hyz

theorem keyRelC_trans (a b c : FlatRow) (h1 : keyRelC a b) (h2 : keyRelC b c) :
    keyRelC a c := by
  unfold keyRelC at h1 h2 ⊢
  rw [sortKeyLE_iff] at h1 h2 ⊢
  rcases h1 with h1 | ⟨e1, h1'⟩
  · rcases h2 with h2 | ⟨e2, -⟩
    · exact Or.inl (lexLt_trans _ _ _ h1 h2)
    · exact Or.inl (by rw [← e2]; exact h1)
  · rcases h2 with h2 | ⟨e2, h2'⟩
    · exact Or.inl (by rw [e1]; exact h2)
    · refine Or.inr ⟨e1.trans e2, ?_⟩
      rcases h1' with h1' | ⟨f1, h1''⟩
      · rcases h2' with h2' | ⟨f2, -⟩
        · exact Or.inl (lexLt_trans _ _ _ h1' h2')
        · exact Or.inl (by rw [← f2]; exact h1')
      · rcases h2' with h2' | ⟨f2, h2''⟩
        · exact Or.inl (by rw [f1]; exact h2')
        · exact Or.inr ⟨f1.trans f2, lexNLt_trans _ _ _ h1'' h2''⟩

/-- C8 (amended).  The flat projection `parse_excel_to_dataframe` appends its
rows section by section in original row order (depth-first order of the
implied tree), but before returning it DOES re-sort the frame by
(date, type, name) (`df.sort_values`, line 183): the returned list is a
permutation of the in-order emission, sorted under the (date, type, name)
key — not the emission order itself (see the counterexample). -/
theorem C8_flat_projection (dates : List String) (aH : List Int) (aR : List Row)
    (lH : List Int) (lR : List Row) :
    (parse_excel_to_dataframe dates aH aR lH lR).Perm
      (emitSection dates "asset" (aH.zip aR) [] ++
        emitSection dates "liability" (lH.zip lR) []) ∧
    List.Sorted keyRelC (parse_excel_to_dataframe dates aH aR lH lR) := by
  constructor
  · exact List.perm_insertionSort keyRelC _
  · exact @List.sorted_insertionSort FlatRow keyRelC _ ⟨keyRelC_total⟩
      ⟨keyRelC_trans⟩ _

/-- Counterexample for C8 as frozen: the returned frame is NOT in emission
(original row) order — two level-1 asset rows named "B" then "A" are emitted
in that order but returned sorted as "A", "B". -/
theorem C8_counterexample :
    (parse_excel_to_dataframe ["2024-01"] [1, 1]
        [⟨Cell.text "B", [Cell.num 1]⟩, ⟨Cell.text "A", [Cell.num 2]⟩] [] []).map
      FlatRow.name = ["A", "B"] ∧
    (emitSection ["2024-01"] "asset"
        ([(1 : Int), 1].zip
          [⟨Cell.text "B", [Cell.num 1]⟩, ⟨Cell.text "A", [Cell.num 2]⟩]) [] ++
      emitSection ["2024-01"] "liability" (([] : List Int).zip ([] : List Row)) []).map
      FlatRow.name = ["B", "A"] ∧
    parse_excel_to_dataframe ["2024-01"] [1, 1]
        [⟨Cell.text "B", [Cell.num 1]⟩, ⟨Cell.text "A", [Cell.num 2]⟩] [] [] ≠
      emitSection ["2024-01"] "asset"
        ([(1 : Int), 1].zip
          [⟨Cell.text "B", [Cell.num 1]⟩, ⟨Cell.text "A", [Cell.num 2]⟩]) [] ++
        emitSection ["2024-01"] "liability" (([] : List Int).zip ([] : List Row)) [] := by
  exact ⟨by decide, by decide, by decide⟩
